import Mathlib

/-!
# Verification of the medical document chunker

Shallow embedding of `prognosis_validation/chunking/chunker.py`
(`MedicalDocumentChunker`) together with the `MedicalSection` input record
from `prognosis_validation/ocr/pdf_processor.py`.

The Python code drives everything through the `re` module, so we first embed
a small backtracking regular-expression engine whose observable behaviour on
the repository's concrete patterns coincides with Python's `re`:

* alternation prefers the left alternative, repetition is greedy, and the
  overall result at a position is the first success in backtracking order;
* `re.sub`/`re.split` take, at each position, the leftmost match (scanning
  forward one character when no match starts at the current position) and
  continue after the matched text;
* `\b` tests that exactly one neighbouring character is a word character,
  `(?<=c)` inspects the character before the position, `(?=[...])` the
  character after it, neither consuming input.

Character classes (`\d`, `\s`, `\w`, `[A-Z]`) are modelled at their ASCII
meaning, which is exhaustive for every character the repository's patterns
can accept, and Python's `str.strip` is modelled as stripping the six ASCII
whitespace characters.

Counted repetitions `{m,n}` are expanded into prioritised alternations
(longest first), which reproduces Python's greedy backtracking order for the
single-character-class bodies used here.  The Kleene star is evaluated with
an iteration budget equal to the length of the remaining input: every star
iteration is required to consume at least one character (true of every star
body in the repository's patterns, and enforced by a filter), so the budget
can only run out when the remaining input is empty, where the star can match
nothing but the empty word anyway; hence the budget never truncates a match.
-/

/-- ASCII model of Python's `\s` (also the set stripped by `str.strip`). -/
def isSpacePy (c : Char) : Bool :=
  c = ' ' || c = '\t' || c = '\n' || c = '\r' || c = '\x0b' || c = '\x0c'

/-- ASCII model of Python's `\w`: letters, digits and underscore. -/
def isWordPy (c : Char) : Bool :=
  c.isAlphanum || c = '_'

/-- The character class `[A-Z]`. -/
def isUpperAZ (c : Char) : Bool :=
  'A' ≤ c && c ≤ 'Z'

/-- Regular expressions, restricted to the constructs used by
`chunker.py`: character classes, concatenation, prioritised alternation,
greedy star, single-character lookbehind, lookahead and word boundary. -/
inductive RE where
  | eps : RE
  | cls (p : Char → Bool) : RE
  | seq (a b : RE) : RE
  | alt (a b : RE) : RE
  | star (a : RE) : RE
  | look (p : Char → Bool) : RE
  | lookb (p : Char → Bool) : RE
  | wb : RE

/-- Literal character. -/
def chr (c : Char) : RE := .cls (· = c)

/-- Literal string. -/
def strRE (s : List Char) : RE := s.foldr (fun c r => .seq (chr c) r) .eps

/-- `a+` (greedy). -/
def plusRE (a : RE) : RE := .seq a (.star a)

/-- `a{n}`: exactly `n` copies. -/
def repExact (a : RE) : Nat → RE
  | 0 => .eps
  | n + 1 => .seq a (repExact a n)

/-- `a{lo,lo+extra}` (greedy): try the longest count first, matching
Python's backtracking order for the single-character bodies used here. -/
def repRange (a : RE) (lo : Nat) : Nat → RE
  | 0 => repExact a lo
  | e + 1 => .alt (repExact a (lo + e + 1)) (repRange a lo e)

/-- Python's `\b`: exactly one of the two neighbouring characters (the one
just matched, head of `l`, and the next one, head of `r`) is a word
character; the ends of the string count as non-word. -/
def wordBoundary (l r : List Char) : Bool :=
  (match l with | [] => false | c :: _ => isWordPy c)
    != (match r with | [] => false | c :: _ => isWordPy c)

/-- Star loop: `matchA` matches one copy of the body.  Results are in greedy
(backtracking) priority order: more iterations first, the empty match last.
Each iteration must consume input (the filter), so a budget of `r.length`
iterations never truncates: at budget 0 the remaining input is empty. -/
def starLoop (matchA : List Char → List Char → List (List Char × List Char)) :
    Nat → List Char → List Char → List (List Char × List Char)
  | 0, l, r => [(l, r)]
  | fuel + 1, l, r =>
    ((matchA l r).filter fun q => q.2.length < r.length).flatMap
      (fun q => starLoop matchA fuel q.1 q.2) ++ [(l, r)]

/-- All ways a regex can match a prefix of `r`, in Python's backtracking
priority order.  `l` is the reversed text before the current position (used
by lookbehind and `\b`); a result `(l', r')` has consumed the characters
between `r` and `r'`, pushing them onto `l`. -/
def mtch : RE → List Char → List Char → List (List Char × List Char)
  | .eps, l, r => [(l, r)]
  | .cls p, l, r =>
    match r with
    | [] => []
    | c :: r' => if p c then [(c :: l, r')] else []
  | .seq a b, l, r => (mtch a l r).flatMap fun q => mtch b q.1 q.2
  | .alt a b, l, r => mtch a l r ++ mtch b l r
  | .star a, l, r => starLoop (fun l' r' => mtch a l' r') r.length l r
  | .look p, l, r =>
    match r with
    | [] => []
    | c :: _ => if p c then [(l, r)] else []
  | .lookb p, l, r =>
    match l with
    | [] => []
    | c :: _ => if p c then [(l, r)] else []
  | .wb, l, r => if wordBoundary l r then [(l, r)] else []

/-- The match Python's engine reports at this position: the first success in
backtracking order. -/
def mtchFirst (re : RE) (l r : List Char) : Option (List Char × List Char) :=
  (mtch re l r).head?

/-- Left-to-right scanner underlying `re.sub` / `re.split` / `re.search`:
returns the list of `(gap, match)` pairs for the non-overlapping leftmost
matches, plus the trailing gap.  `acc` is the reversed gap accumulated since
the last match.  Matches of the repository's patterns are never empty; a
hypothetical empty match is treated as no match (the scanner advances). -/
def scanAux (re : RE) : Nat → List Char → List Char → List Char →
    List (List Char × List Char) × List Char
  | 0, _, acc, right => ([], acc.reverse ++ right)
  | fuel + 1, left, acc, right =>
    match mtchFirst re left right with
    | some q =>
      if q.2.length < right.length then
        let consumed := right.take (right.length - q.2.length)
        let rest := scanAux re fuel q.1 [] q.2
        ((acc.reverse, consumed) :: rest.1, rest.2)
      else
        match right with
        | [] => ([], acc.reverse)
        | c :: r' => scanAux re fuel (c :: left) (c :: acc) r'
    | none =>
      match right with
      | [] => ([], acc.reverse)
      | c :: r' => scanAux re fuel (c :: left) (c :: acc) r'

/-- Scan a whole text.  The step budget `length + 1` is exact: every step
either consumes at least one character or terminates the scan. -/
def reScan (re : RE) (t : List Char) :
    List (List Char × List Char) × List Char :=
  scanAux re (t.length + 1) [] [] t

/-- Python `re.split` (patterns without capture groups): the gaps between
the non-overlapping leftmost matches. -/
def reSplit (re : RE) (t : List Char) : List (List Char) :=
  (reScan re t).1.map Prod.fst ++ [(reScan re t).2]

/-- Python `re.sub` with a replacement function: gaps are kept, each match
is replaced by `f` applied to the matched text. -/
def reSub (re : RE) (f : List Char → List Char) (t : List Char) : List Char :=
  ((reScan re t).1.flatMap fun q => q.1 ++ f q.2) ++ (reScan re t).2

/-- `bool(re.search(...))`: does the pattern match anywhere? -/
def reSearch (re : RE) (t : List Char) : Bool :=
  !(reScan re t).1.isEmpty

/-! ## The repository's concrete patterns (`MedicalDocumentChunker.__init__`) -/

/-- `\b\d{1,2}/\d{1,2}/\d{2,4}\b` — dates. -/
def datePat : RE :=
  .seq .wb (.seq (repRange (.cls Char.isDigit) 1 1)
    (.seq (chr '/') (.seq (repRange (.cls Char.isDigit) 1 1)
      (.seq (chr '/') (.seq (repRange (.cls Char.isDigit) 2 2) .wb)))))

/-- `mg|ml|g|kg|mm|cm` in Python's alternation order. -/
def unitAlts : RE :=
  .alt (strRE ['m', 'g']) (.alt (strRE ['m', 'l']) (.alt (strRE ['g'])
    (.alt (strRE ['k', 'g']) (.alt (strRE ['m', 'm']) (strRE ['c', 'm'])))))

/-- `\b\d+\s*(?:mg|ml|g|kg|mm|cm)\b` — measurements. -/
def measurePat : RE :=
  .seq .wb (.seq (plusRE (.cls Char.isDigit))
    (.seq (.star (.cls isSpacePy)) (.seq unitAlts .wb)))

/-- `Mr\.|Mrs\.|Dr\.|Prof\.` in Python's alternation order. -/
def titleAlts : RE :=
  .alt (strRE ['M', 'r', '.']) (.alt (strRE ['M', 'r', 's', '.'])
    (.alt (strRE ['D', 'r', '.']) (strRE ['P', 'r', 'o', 'f', '.'])))

/-- `\b(?:Mr\.|Mrs\.|Dr\.|Prof\.)\s+\w+` — professional titles. -/
def titlePat : RE :=
  .seq .wb (.seq titleAlts
    (.seq (plusRE (.cls isSpacePy)) (plusRE (.cls isWordPy))))

/-- `\b[A-Z]\d+\.\d+\b` — medical codes. -/
def codePat : RE :=
  .seq .wb (.seq (.cls isUpperAZ) (.seq (plusRE (.cls Char.isDigit))
    (.seq (chr '.') (plusRE (.cls Char.isDigit)))))

/-- `self.preserve_patterns`, in list order. -/
def preservePatterns : List RE := [datePat, measurePat, titlePat, codePat]

/-- `(?<=\.)\s+(?=[A-Z])` — sentence endings. -/
def breakSentence : RE :=
  .seq (.lookb (· = '.')) (.seq (plusRE (.cls isSpacePy)) (.look isUpperAZ))

/-- `(?<=:)\s+` — after colons. -/
def breakColon : RE :=
  .seq (.lookb (· = ':')) (plusRE (.cls isSpacePy))

/-- `\n\s*\n` — double line breaks. -/
def breakBlank : RE :=
  .seq (chr '\n') (.seq (.star (.cls isSpacePy)) (chr '\n'))

/-- `(?<=\))\s+(?=[A-Z])` — after closing parentheses. -/
def breakParen : RE :=
  .seq (.lookb (· = ')')) (.seq (plusRE (.cls isSpacePy)) (.look isUpperAZ))

/-- `•\s*|\*\s*|[\d]+\.\s*` — list markers. -/
def breakList : RE :=
  .alt (.seq (chr '•') (.star (.cls isSpacePy)))
    (.alt (.seq (chr '*') (.star (.cls isSpacePy)))
      (.seq (plusRE (.cls Char.isDigit))
        (.seq (chr '.') (.star (.cls isSpacePy)))))

/-- `self.break_patterns`, in list order. -/
def breakPatterns : List RE :=
  [breakSentence, breakColon, breakBlank, breakParen, breakList]

/-! ## The chunker pipeline (`chunker.py`) -/

/-- The matched text's `.replace(' ', '█')` from `_protect_patterns`. -/
def spaceToBlock (s : List Char) : List Char :=
  s.map fun c => if c = ' ' then '█' else c

/-- `_protect_patterns`: for each preserve pattern in order, replace each
match by itself with spaces turned into the `'█'` sentinel. -/
def protect_patterns (t : List Char) : List Char :=
  preservePatterns.foldl (fun acc p => reSub p spaceToBlock acc) t

/-- `_restore_patterns`: `text.replace('█', ' ')`. -/
def restore_patterns (t : List Char) : List Char :=
  t.map fun c => if c = '█' then ' ' else c

/-- Python `str.strip()`: drop leading and trailing whitespace. -/
def pyStrip (s : List Char) : List Char :=
  ((s.dropWhile isSpacePy).reverse.dropWhile isSpacePy).reverse

/-- One pass of `_split_into_segments`'s inner loop: split every current
segment on the pattern, strip the parts, and keep the non-empty ones. -/
def splitPass (p : RE) (segments : List (List Char)) : List (List Char) :=
  segments.flatMap fun s =>
    (reSplit p s).filterMap fun x =>
      let y := pyStrip x
      if y.isEmpty then none else some y

/-- `_split_into_segments`: apply every break pattern in order, starting
from the single segment `[text]`. -/
def split_into_segments (t : List Char) : List (List Char) :=
  breakPatterns.foldl (fun segments p => splitPass p segments) [t]

/-- `MedicalSection` (dataclass in `ocr/pdf_processor.py`); `bbox` is
carried but never read by the chunker. -/
structure MedicalSection where
  title : String
  content : String
  page_num : Int
  bbox : Int × Int × Int × Int
deriving Repr, DecidableEq

/-- One draw from the wall clock inside `_create_chunk`: the rendered
`datetime.now().timestamp()` and `datetime.now().isoformat()` values. -/
structure Timestamp where
  timestamp : String
  isoformat : String
deriving Repr, DecidableEq

/-- The metadata dict built by `_create_chunk` (fixed key set). -/
structure ChunkMetadata where
  section_type : String
  page_num : Int
  chunk_length : Nat
  created_at : String
  contains_measurements : Bool
  contains_dates : Bool
deriving Repr, DecidableEq

/-- `MedicalChunk` (dataclass in `chunker.py`). -/
structure MedicalChunk where
  content : String
  section_type : String
  page_num : Int
  chunk_id : String
  metadata : ChunkMetadata
deriving Repr, DecidableEq

/-- The chunker's configuration (`MedicalDocumentChunker.__init__`). -/
structure MedicalDocumentChunker where
  max_chunk_size : Nat := 500
  min_chunk_size : Nat := 100
deriving Repr, DecidableEq

/-- A chunker with the default parameters. -/
def defaultChunker : MedicalDocumentChunker := {}

/-- `' '.join(current_chunk)`. -/
def joinSp : List (List Char) → List Char
  | [] => []
  | [s] => s
  | s :: rest => s ++ ' ' :: joinSp rest

/-- `_create_chunk`: the wall-clock draw is an explicit argument. -/
def create_chunk (content : List Char) (section_type : String)
    (page_num : Int) (now : Timestamp) : MedicalChunk :=
  { content := ⟨content⟩
    section_type := section_type
    page_num := page_num
    chunk_id :=
      section_type ++ "_" ++ toString page_num ++ "_" ++ now.timestamp
    metadata :=
      { section_type := section_type
        page_num := page_num
        chunk_length := content.length
        created_at := now.isoformat
        contains_measurements := reSearch measurePat content
        contains_dates := reSearch datePat content } }

/-- The segment-accumulation loop of `chunk_section`.  `clock n` is the
wall-clock draw observed while creating the `n`-th chunk; `nchunks` counts
the chunks already created, `cur`/`curLen` are `current_chunk` and
`current_length`. -/
def assembleLoop (ck : MedicalDocumentChunker) (clock : Nat → Timestamp)
    (title : String) (page : Int) (nchunks : Nat) (cur : List (List Char))
    (curLen : Nat) : List (List Char) → List MedicalChunk
  | [] =>
    if cur = [] then []
    else [create_chunk (joinSp cur) title page (clock nchunks)]
  | seg :: rest =>
    let s := restore_patterns seg
    let segLen := s.length
    if curLen + segLen > ck.max_chunk_size ∧ cur ≠ [] then
      create_chunk (joinSp cur) title page (clock nchunks) ::
        assembleLoop ck clock title page (nchunks + 1) [s] segLen rest
    else
      assembleLoop ck clock title page nchunks (cur ++ [s]) (curLen + segLen)
        rest

/-- `chunk_section`: protect, segment, then greedily assemble. -/
def chunk_section (ck : MedicalDocumentChunker) (clock : Nat → Timestamp)
    (sect : MedicalSection) : List MedicalChunk :=
  assembleLoop ck clock sect.title sect.page_num 0 [] 0
    (split_into_segments (protect_patterns sect.content.data))

/-! ## Auxiliary notions used by the verification -/

/-- Interleave the `(gap, match)` pairs and the trailing gap back into one
string. -/
def glue (pairs : List (List Char × List Char)) (fin : List Char) :
    List Char :=
  (pairs.flatMap fun q => q.1 ++ q.2) ++ fin

/-- A character is *solid* when it is neither whitespace nor the `'█'`
sentinel.  Guarding (`' ' ↦ '█'`) and unguarding (`'█' ↦ ' '`) move
characters between the two non-solid kinds only, so the multiset of solid
characters is the quantity conserved by the pipeline. -/
def isSolid (c : Char) : Bool := !isSpacePy c && c != '█'

/-- The multiset of solid characters of a string. -/
def solidBag (s : List Char) : Multiset Char := (s.filter isSolid : List Char)

/-- `re` cannot match when the remaining input is all whitespace. -/
def NMS (re : RE) : Prop :=
  ∀ l r, (∀ c ∈ r, isSpacePy c = true) → mtch re l r = []

/-- The clock value feeds only `chunk_id` and `created_at`; every other
chunk field is clock-independent.  `chunkView` projects those other
fields. -/
def chunkView (ch : MedicalChunk) :
    String × String × Int × String × Int × Nat × Bool × Bool :=
  (ch.content, ch.section_type, ch.page_num, ch.metadata.section_type,
    ch.metadata.page_num, ch.metadata.chunk_length,
    ch.metadata.contains_measurements, ch.metadata.contains_dates)

/-- A deterministic clock with pairwise distinct readings, for concrete
evaluations. -/
def testClock : Nat → Timestamp :=
  fun n => ⟨toString n, "T" ++ toString n⟩

/-- A clock frozen within one tick: every reading is identical, as happens
to `datetime.now()` under coarse clock resolution or concurrency. -/
def stuckClock : Nat → Timestamp :=
  fun _ => ⟨"1700000000.0", "2023-11-14T22:13:20"⟩

/-- A clock whose rendered timestamps are pairwise distinct by length. -/
def replClock : Nat → Timestamp :=
  fun n => ⟨⟨List.replicate n 'a'⟩, ""⟩

/-! ## Matcher soundness: every reported match consumes a prefix

`mtch re l r` only ever returns states `(l', r')` where `r'` is obtained
from `r` by consuming a prefix `cs`, pushed reversed onto `l`. -/

theorem starLoop_suffix
    (matchA : List Char → List Char → List (List Char × List Char))
    (hA : ∀ l r q, q ∈ matchA l r →
      ∃ cs, r = cs ++ q.2 ∧ q.1 = cs.reverse ++ l) :
    ∀ fuel l r q, q ∈ starLoop matchA fuel l r →
      ∃ cs, r = cs ++ q.2 ∧ q.1 = cs.reverse ++ l := by
  intro fuel
  induction fuel with
  | zero =>
    intro l r q hq
    simp only [starLoop, List.mem_singleton] at hq
    exact ⟨[], by simp [hq]⟩
  | succ n ih =>
    intro l r q hq
    simp only [starLoop, List.mem_append, List.mem_flatMap, List.mem_filter,
      List.mem_singleton] at hq
    rcases hq with ⟨q', ⟨hq'A, _⟩, hq'⟩ | hq
    · obtain ⟨cs₁, hr₁, hl₁⟩ := hA _ _ _ hq'A
      obtain ⟨cs₂, hr₂, hl₂⟩ := ih _ _ _ hq'
      refine ⟨cs₁ ++ cs₂, ?_, ?_⟩
      · rw [hr₁, hr₂, List.append_assoc]
      · rw [hl₂, hl₁, List.reverse_append, List.append_assoc]
    · exact ⟨[], by simp [hq]⟩

theorem mtch_suffix :
    ∀ re l r q, q ∈ mtch re l r →
      ∃ cs, r = cs ++ q.2 ∧ q.1 = cs.reverse ++ l := by
  intro re
  induction re with
  | eps =>
    intro l r q hq
    simp only [mtch, List.mem_singleton] at hq
    exact ⟨[], by simp [hq]⟩
  | cls p =>
    intro l r q hq
    match r with
    | [] => simp [mtch] at hq
    | c :: r' =>
      simp only [mtch] at hq
      by_cases hc : p c
      · rw [if_pos hc] at hq
        simp only [List.mem_singleton] at hq
        exact ⟨[c], by simp [hq]⟩
      · rw [if_neg hc] at hq
        simp at hq
  | seq a b iha ihb =>
    intro l r q hq
    simp only [mtch, List.mem_flatMap] at hq
    obtain ⟨q', hq'a, hqb⟩ := hq
    obtain ⟨cs₁, hr₁, hl₁⟩ := iha _ _ _ hq'a
    obtain ⟨cs₂, hr₂, hl₂⟩ := ihb _ _ _ hqb
    refine ⟨cs₁ ++ cs₂, ?_, ?_⟩
    · rw [hr₁, hr₂, List.append_assoc]
    · rw [hl₂, hl₁, List.reverse_append, List.append_assoc]
  | alt a b iha ihb =>
    intro l r q hq
    simp only [mtch, List.mem_append] at hq
    rcases hq with hq | hq
    · exact iha _ _ _ hq
    · exact ihb _ _ _ hq
  | star a iha =>
    intro l r q hq
    exact starLoop_suffix _ (fun l' r' q' h => iha l' r' q' h) _ _ _ _ hq
  | look p =>
    intro l r q hq
    match r with
    | [] => simp [mtch] at hq
    | c :: r' =>
      simp only [mtch] at hq
      by_cases hc : p c
      · rw [if_pos hc] at hq
        simp only [List.mem_singleton] at hq
        exact ⟨[], by simp [hq]⟩
      · rw [if_neg hc] at hq
        simp at hq
  | lookb p =>
    intro l r q hq
    match l with
    | [] => simp [mtch] at hq
    | c :: l' =>
      simp only [mtch] at hq
      by_cases hc : p c
      · rw [if_pos hc] at hq
        simp only [List.mem_singleton] at hq
        exact ⟨[], by simp [hq]⟩
      · rw [if_neg hc] at hq
        simp at hq
  | wb =>
    intro l r q hq
    simp only [mtch] at hq
    by_cases hb : wordBoundary l r
    · rw [if_pos hb] at hq
      simp only [List.mem_singleton] at hq
      exact ⟨[], by simp [hq]⟩
    · rw [if_neg hb] at hq
      simp at hq

theorem mtchFirst_suffix (re : RE) (l r : List Char) (q : List Char × List Char)
    (h : mtchFirst re l r = some q) :
    ∃ cs, r = cs ++ q.2 ∧ q.1 = cs.reverse ++ l := by
  have hq : q ∈ mtch re l r := by
    unfold mtchFirst at h
    exact List.mem_of_mem_head? (h ▸ rfl)
  exact mtch_suffix re l r q hq

/-! ## Scanner reconstruction: gaps and matches tile the input -/

theorem scanAux_glue (re : RE) :
    ∀ fuel left acc right,
      glue (scanAux re fuel left acc right).1 (scanAux re fuel left acc right).2
        = acc.reverse ++ right := by
  intro fuel
  induction fuel with
  | zero => intro left acc right; simp [scanAux, glue]
  | succ n ih =>
    intro left acc right
    simp only [scanAux]
    cases hm : mtchFirst re left right with
    | none =>
      cases right with
      | nil => simp [glue]
      | cons c r' =>
        have := ih (c :: left) (c :: acc) r'
        rw [this]
        simp
    | some q =>
      dsimp only
      by_cases hlt : q.2.length < right.length
      · rw [if_pos hlt]
        obtain ⟨cs, hr, hl⟩ := mtchFirst_suffix re left right q hm
        have htake : right.take (right.length - q.2.length) = cs := by
          rw [hr, List.length_append, Nat.add_sub_cancel]
          exact List.take_left cs q.2
        simp only [glue, List.flatMap_cons, List.append_assoc]
        have hrest := ih q.1 [] q.2
        simp only [glue, List.reverse_nil, List.nil_append] at hrest
        rw [hrest, htake, hr]
      · rw [if_neg hlt]
        cases right with
        | nil => simp [glue]
        | cons c r' =>
          have := ih (c :: left) (c :: acc) r'
          rw [this]
          simp

/-- Top-level reconstruction: the scan of `t` tiles `t` exactly. -/
theorem glue_reScan (re : RE) (t : List Char) :
    glue (reScan re t).1 (reScan re t).2 = t := by
  have := scanAux_glue re (t.length + 1) [] [] t
  simpa [reScan] using this

/-- The split pieces, concatenated, form a sublist of the input (the
separators are dropped). -/
theorem reSplit_flatten_sublist (re : RE) (t : List Char) :
    ((reSplit re t).flatten).Sublist t := by
  conv_rhs => rw [← glue_reScan re t]
  unfold reSplit glue
  generalize (reScan re t).1 = pairs
  generalize (reScan re t).2 = fin
  induction pairs with
  | nil => simp
  | cons q rest ih =>
    simp only [List.map_cons, List.flatten_cons, List.flatMap_cons,
      List.cons_append, List.append_assoc]
    refine (List.append_sublist_append_left q.1).mpr ?_
    exact ih.trans (List.sublist_append_right q.2 _)

/-! ## Character bookkeeping

A character is *solid* when it is neither whitespace nor the `'█'` sentinel.
Guarding (`' ' ↦ '█'`) and unguarding (`'█' ↦ ' '`) move characters between
the two non-solid kinds only, so the multiset of solid characters is the
quantity conserved by the pipeline. -/

theorem solidBag_append (a b : List Char) :
    solidBag (a ++ b) = solidBag a + solidBag b := by
  simp [solidBag, List.filter_append]

theorem solidBag_sublist {a b : List Char} (h : a.Sublist b) :
    solidBag a ≤ solidBag b := by
  exact Multiset.coe_le.mpr (h.filter isSolid).subperm

/-- Guarding a span changes only `' '` into `'█'`, both non-solid: the
solid characters are untouched, as a list. -/
theorem filter_isSolid_spaceToBlock (s : List Char) :
    (spaceToBlock s).filter isSolid = s.filter isSolid := by
  induction s with
  | nil => rfl
  | cons c s ih =>
    by_cases hc : c = ' '
    · subst hc
      simpa [spaceToBlock, List.filter_cons, isSolid, isSpacePy] using ih
    · simp only [spaceToBlock, List.map_cons, if_neg hc, List.filter_cons]
      simp only [spaceToBlock] at ih
      rw [ih]

/-- Unguarding changes only `'█'` into `' '`, both non-solid. -/
theorem filter_isSolid_restore (s : List Char) :
    (restore_patterns s).filter isSolid = s.filter isSolid := by
  induction s with
  | nil => rfl
  | cons c s ih =>
    by_cases hc : c = '█'
    · subst hc
      simpa [restore_patterns, List.filter_cons, isSolid, isSpacePy] using ih
    · simp only [restore_patterns, List.map_cons, if_neg hc, List.filter_cons]
      simp only [restore_patterns] at ih
      rw [ih]

theorem solidBag_restore (s : List Char) :
    solidBag (restore_patterns s) = solidBag s := by
  simp [solidBag, filter_isSolid_restore]

theorem solidBag_spaceToBlock (s : List Char) :
    solidBag (spaceToBlock s) = solidBag s := by
  simp [solidBag, filter_isSolid_spaceToBlock]

/-- A single guarding substitution conserves the solid characters. -/
theorem solidBag_reSub (re : RE) (t : List Char) :
    solidBag (reSub re spaceToBlock t) = solidBag t := by
  conv_rhs => rw [← glue_reScan re t]
  unfold reSub glue
  generalize (reScan re t).1 = pairs
  generalize (reScan re t).2 = fin
  induction pairs with
  | nil => rfl
  | cons q rest ih =>
    simp only [List.flatMap_cons, List.append_assoc, solidBag_append,
      solidBag_spaceToBlock] at ih ⊢
    rw [ih]

/-- `_protect_patterns` conserves the solid characters. -/
theorem solidBag_protect (t : List Char) :
    solidBag (protect_patterns t) = solidBag t := by
  unfold protect_patterns preservePatterns
  simp only [List.foldl_cons, List.foldl_nil]
  rw [solidBag_reSub, solidBag_reSub, solidBag_reSub, solidBag_reSub]

/-- `str.strip` only removes characters. -/
theorem pyStrip_sublist (s : List Char) : (pyStrip s).Sublist s := by
  unfold pyStrip
  have h1 : ((s.dropWhile isSpacePy).reverse.dropWhile isSpacePy).Sublist
      (s.dropWhile isSpacePy).reverse := List.dropWhile_sublist _
  have h2 := h1.reverse
  simp only [List.reverse_reverse] at h2
  exact h2.trans (List.dropWhile_sublist _)

/-- `str.strip` of a whitespace-only string is empty. -/
theorem pyStrip_allSpace (s : List Char) (h : ∀ c ∈ s, isSpacePy c = true) :
    pyStrip s = [] := by
  unfold pyStrip
  rw [List.dropWhile_eq_nil_iff.mpr h]
  rfl

/-- Strips are never empty after the filter in `_split_into_segments`. -/
theorem mem_splitPass_ne_nil (p : RE) (segs : List (List Char)) :
    ∀ x ∈ splitPass p segs, x ≠ [] := by
  intro x hx
  simp only [splitPass, List.mem_flatMap, List.mem_filterMap] at hx
  obtain ⟨s, _, y, _, hy⟩ := hx
  by_cases he : (pyStrip y).isEmpty
  · simp [he] at hy
  · simp only [if_neg he] at hy
    cases hy
    simpa [List.isEmpty_iff] using he

/-- Every segment `_split_into_segments` returns is non-empty. -/
theorem split_into_segments_ne_nil (t : List Char) :
    ∀ x ∈ split_into_segments t, x ≠ [] := by
  intro x hx
  unfold split_into_segments breakPatterns at hx
  simp only [List.foldl_cons, List.foldl_nil] at hx
  exact mem_splitPass_ne_nil _ _ x hx

/-! ## Unguard after guard

`_restore_patterns` maps both `' '` and `'█'` to `' '`, and a guarding
substitution only turns `' '` into `'█'` inside matches, so restoring after
guarding gives exactly the same string as restoring the original text. -/

theorem restore_spaceToBlock (s : List Char) :
    restore_patterns (spaceToBlock s) = restore_patterns s := by
  induction s with
  | nil => rfl
  | cons c s ih =>
    by_cases hc : c = ' '
    · subst hc
      simpa [restore_patterns, spaceToBlock] using ih
    · simp only [spaceToBlock, List.map_cons, if_neg hc, restore_patterns]
      simp only [spaceToBlock, restore_patterns] at ih
      rw [ih]

theorem restore_append (a b : List Char) :
    restore_patterns (a ++ b) = restore_patterns a ++ restore_patterns b := by
  simp [restore_patterns]

theorem restore_reSub (re : RE) (t : List Char) :
    restore_patterns (reSub re spaceToBlock t) = restore_patterns t := by
  conv_rhs => rw [← glue_reScan re t]
  unfold reSub glue
  generalize (reScan re t).1 = pairs
  generalize (reScan re t).2 = fin
  induction pairs with
  | nil => rfl
  | cons q rest ih =>
    simp only [List.flatMap_cons, List.append_assoc, restore_append,
      restore_spaceToBlock] at ih ⊢
    rw [ih]

/-- Unguard absorbs guard: restoring after `_protect_patterns` is the same
as restoring the raw text. -/
theorem restore_protect (t : List Char) :
    restore_patterns (protect_patterns t) = restore_patterns t := by
  unfold protect_patterns preservePatterns
  simp only [List.foldl_cons, List.foldl_nil]
  rw [restore_reSub, restore_reSub, restore_reSub, restore_reSub]

/-! ## Solid characters through segmentation -/

theorem bagSum_flatten (l : List (List Char)) :
    (l.map solidBag).sum = solidBag l.flatten := by
  induction l with
  | nil => rfl
  | cons s rest ih => simp [solidBag_append, ih]

theorem bagSum_filterMap_strip (pieces : List (List Char)) :
    ((pieces.filterMap fun x =>
        let y := pyStrip x
        if y.isEmpty then none else some y).map solidBag).sum
      ≤ (pieces.map solidBag).sum := by
  induction pieces with
  | nil => exact le_refl _
  | cons x rest ih =>
    simp only [List.filterMap_cons]
    by_cases he : (pyStrip x).isEmpty
    · simp only [he, if_pos rfl, List.map_cons, List.sum_cons]
      exact ih.trans (Multiset.le_add_left _ _)
    · simp only [if_neg he, List.map_cons, List.sum_cons]
      exact add_le_add (solidBag_sublist (pyStrip_sublist x)) ih

theorem bagSum_splitPass (p : RE) (segs : List (List Char)) :
    ((splitPass p segs).map solidBag).sum ≤ (segs.map solidBag).sum := by
  induction segs with
  | nil => exact le_refl _
  | cons s rest ih =>
    simp only [splitPass, List.flatMap_cons, List.map_append, List.sum_append,
      List.map_cons, List.sum_cons]
    refine add_le_add ?_ ih
    refine (bagSum_filterMap_strip _).trans ?_
    rw [bagSum_flatten]
    exact solidBag_sublist (reSplit_flatten_sublist p s)

theorem bagSum_foldl_splitPass (ps : List RE) :
    ∀ segs, ((ps.foldl (fun segments p => splitPass p segments) segs).map
      solidBag).sum ≤ (segs.map solidBag).sum := by
  induction ps with
  | nil => intro segs; exact le_refl _
  | cons p rest ih =>
    intro segs
    simp only [List.foldl_cons]
    exact (ih _).trans (bagSum_splitPass p segs)

/-- Segmentation never duplicates or invents solid characters. -/
theorem bagSum_segments (t : List Char) :
    ((split_into_segments t).map solidBag).sum ≤ solidBag t := by
  unfold split_into_segments
  generalize breakPatterns = ps
  refine (bagSum_foldl_splitPass ps [t]).trans (le_of_eq ?_)
  simp only [List.map_cons, List.map_nil, List.sum_cons, List.sum_nil,
    add_zero]

theorem foldl_splitPass_flat (ps : List RE) :
    ∀ segs, solidBag ((ps.foldl (fun segments p => splitPass p segments)
        segs).flatten)
      ≤ solidBag segs.flatten := by
  induction ps with
  | nil => intro segs; exact le_refl _
  | cons p rest ih =>
    intro segs
    simp only [List.foldl_cons]
    refine (ih _).trans ?_
    rw [← bagSum_flatten, ← bagSum_flatten]
    exact bagSum_splitPass p segs

/-- Flatten form of `bagSum_segments`: segmentation never duplicates or
invents solid characters. -/
theorem solidBag_segments_flat (t : List Char) :
    solidBag (split_into_segments t).flatten ≤ solidBag t := by
  unfold split_into_segments
  generalize breakPatterns = ps
  refine (foldl_splitPass_flat ps [t]).trans (le_of_eq ?_)
  simp

/-- Strings with the same character data are equal. -/
theorem string_eq_of_data_eq {a b : String} (h : a.data = b.data) : a = b := by
  cases a
  cases b
  exact congrArg String.mk h

/-! ## No preserve pattern matches inside whitespace-only text

Every protection rule must consume at least one non-whitespace character
(a digit, an uppercase letter, or the first letter of a title literal), so
on whitespace-only text `_protect_patterns` finds no match at any position
and is the identity. -/

theorem space_char_cases (c : Char) (h : isSpacePy c = true) :
    c = ' ' ∨ c = '\t' ∨ c = '\n' ∨ c = '\r' ∨ c = '\x0b' ∨ c = '\x0c' := by
  simpa [isSpacePy, or_assoc] using h

theorem nms_cls {p : Char → Bool}
    (hp : ∀ c, isSpacePy c = true → p c = false) : NMS (.cls p) := by
  intro l r hr
  cases r with
  | nil => rfl
  | cons c r' =>
    simp only [mtch]
    rw [hp c (hr c (List.mem_cons_self c r'))]
    rfl

theorem nms_seq_left {a b : RE} (ha : NMS a) : NMS (.seq a b) := by
  intro l r hr
  simp only [mtch, ha l r hr, List.flatMap_nil]

theorem nms_seq_wb {b : RE} (hb : NMS b) : NMS (.seq .wb b) := by
  intro l r hr
  simp only [mtch]
  by_cases hw : wordBoundary l r
  · rw [if_pos hw]
    simp [hb l r hr]
  · rw [if_neg hw]
    rfl

theorem nms_alt {a b : RE} (ha : NMS a) (hb : NMS b) : NMS (.alt a b) := by
  intro l r hr
  simp only [mtch, ha l r hr, hb l r hr, List.append_nil]

theorem nms_repExact {a : RE} (ha : NMS a) (n : Nat) :
    NMS (repExact a (n + 1)) :=
  nms_seq_left ha

theorem nms_repRange {a : RE} (ha : NMS a) (m : Nat) :
    ∀ e, NMS (repRange a (m + 1) e) := by
  intro e
  induction e with
  | zero => exact nms_repExact ha m
  | succ e ih =>
    have h1 : NMS (repExact a (m + e + 1 + 1)) := nms_repExact ha (m + e + 1)
    have h2 : m + e + 1 + 1 = m + 1 + e + 1 := by omega
    exact nms_alt (h2 ▸ h1) ih

theorem nms_strRE {c : Char} (hc : isSpacePy c = false) (s : List Char) :
    NMS (strRE (c :: s)) := by
  refine nms_seq_left (nms_cls ?_)
  intro d hd
  by_cases hdc : d = c
  · subst hdc; rw [hd] at hc; cases hc
  · simpa using hdc

theorem isDigit_of_space (c : Char) (h : isSpacePy c = true) :
    Char.isDigit c = false := by
  rcases space_char_cases c h with h | h | h | h | h | h <;> subst h <;> decide

theorem isUpperAZ_of_space (c : Char) (h : isSpacePy c = true) :
    isUpperAZ c = false := by
  rcases space_char_cases c h with h | h | h | h | h | h <;> subst h <;> decide

theorem nms_digit : NMS (.cls Char.isDigit) :=
  nms_cls isDigit_of_space

theorem nms_datePat : NMS datePat :=
  nms_seq_wb (nms_seq_left (nms_repRange nms_digit 0 1))

theorem nms_measurePat : NMS measurePat :=
  nms_seq_wb (nms_seq_left (nms_seq_left nms_digit))

theorem nms_titlePat : NMS titlePat := by
  refine nms_seq_wb (nms_seq_left ?_)
  exact nms_alt (nms_strRE (by decide) _)
    (nms_alt (nms_strRE (by decide) _)
      (nms_alt (nms_strRE (by decide) _) (nms_strRE (by decide) _)))

theorem nms_codePat : NMS codePat :=
  nms_seq_wb (nms_seq_left (nms_cls isUpperAZ_of_space))

/-- On whitespace-only text a non-matching pattern's scan finds nothing. -/
theorem scanAux_nomatch (re : RE) (hre : NMS re) :
    ∀ fuel left acc right, (∀ c ∈ right, isSpacePy c = true) →
      scanAux re fuel left acc right = ([], acc.reverse ++ right) := by
  intro fuel
  induction fuel with
  | zero => intro left acc right _; rfl
  | succ n ih =>
    intro left acc right hr
    have hm : mtchFirst re left right = none := by
      unfold mtchFirst
      rw [hre left right hr]
      rfl
    cases right with
    | nil => simp [scanAux, hm]
    | cons c r' =>
      simp only [scanAux, hm]
      rw [ih (c :: left) (c :: acc) r' (fun d hd => hr d (List.mem_cons_of_mem c hd))]
      simp

/-- A guarding substitution is the identity on whitespace-only text. -/
theorem reSub_allSpace (re : RE) (hre : NMS re) (f : List Char → List Char)
    (t : List Char) (ht : ∀ c ∈ t, isSpacePy c = true) :
    reSub re f t = t := by
  unfold reSub reScan
  rw [scanAux_nomatch re hre _ [] [] t ht]
  rfl

/-- `_protect_patterns` is the identity on whitespace-only text. -/
theorem protect_allSpace (t : List Char)
    (ht : ∀ c ∈ t, isSpacePy c = true) : protect_patterns t = t := by
  unfold protect_patterns preservePatterns
  simp only [List.foldl_cons, List.foldl_nil]
  rw [reSub_allSpace _ nms_datePat _ _ ht, reSub_allSpace _ nms_measurePat _ _ ht,
    reSub_allSpace _ nms_titlePat _ _ ht, reSub_allSpace _ nms_codePat _ _ ht]

/-- Any piece `re.split` returns is made of characters of the input. -/
theorem mem_of_mem_reSplit (re : RE) (t x : List Char) (c : Char)
    (hx : x ∈ reSplit re t) (hc : c ∈ x) : c ∈ t := by
  have hsub := reSplit_flatten_sublist re t
  exact hsub.mem (List.mem_flatten.mpr ⟨x, hx, hc⟩)

/-- On whitespace-only text, one split pass yields no segments. -/
theorem splitPass_allSpace (p : RE) (t : List Char)
    (ht : ∀ c ∈ t, isSpacePy c = true) : splitPass p [t] = [] := by
  unfold splitPass
  simp only [List.flatMap_cons, List.flatMap_nil, List.append_nil]
  rw [List.filterMap_eq_nil_iff.mpr]
  intro x hx
  have hxs : pyStrip x = [] :=
    pyStrip_allSpace x (fun c hc => ht c (mem_of_mem_reSplit p t x c hx hc))
  simp [hxs]

theorem foldl_splitPass_nil (ps : List RE) :
    ps.foldl (fun segments p => splitPass p segments) [] = [] := by
  induction ps with
  | nil => rfl
  | cons p rest ih =>
    simp only [List.foldl_cons]
    have : splitPass p [] = [] := rfl
    rw [this, ih]

/-- `_split_into_segments` of whitespace-only text is empty. -/
theorem split_into_segments_allSpace (t : List Char)
    (ht : ∀ c ∈ t, isSpacePy c = true) : split_into_segments t = [] := by
  unfold split_into_segments breakPatterns
  simp only [List.foldl_cons, List.foldl_nil]
  rw [splitPass_allSpace breakSentence t ht]
  rfl

/-! ## The assembly loop -/

theorem restore_length (s : List Char) :
    (restore_patterns s).length = s.length := by
  simp [restore_patterns]

theorem create_chunk_content (c : List Char) (t : String) (p : Int)
    (n : Timestamp) : (create_chunk c t p n).content.data = c := rfl

/-- The joining spaces are not solid, so a chunk's solid characters are
exactly those of its accumulated segments. -/
theorem solidBag_joinSp (l : List (List Char)) :
    solidBag (joinSp l) = (l.map solidBag).sum := by
  induction l with
  | nil => rfl
  | cons s rest ih =>
    cases rest with
    | nil => simp [joinSp, solidBag]
    | cons s' rest' =>
      have hj : joinSp (s :: s' :: rest') = s ++ ' ' :: joinSp (s' :: rest') :=
        rfl
      rw [hj, solidBag_append, List.map_cons, List.sum_cons]
      have hsp : solidBag (' ' :: joinSp (s' :: rest')) =
          solidBag (joinSp (s' :: rest')) := by
        simp [solidBag, List.filter_cons, isSolid, isSpacePy]
      rw [hsp, ih]

/-- `' '.join` length: segment lengths plus one space per boundary. -/
theorem joinSp_length (l : List (List Char)) (hne : l ≠ []) :
    (joinSp l).length = (l.map List.length).sum + (l.length - 1) := by
  induction l with
  | nil => cases hne rfl
  | cons s rest ih =>
    cases rest with
    | nil => simp [joinSp]
    | cons s' rest' =>
      have hj : joinSp (s :: s' :: rest') = s ++ ' ' :: joinSp (s' :: rest') :=
        rfl
      rw [hj]
      have := ih (by simp)
      simp only [List.length_append, List.length_cons, this, List.map_cons,
        List.sum_cons, List.length_cons]
      omega

theorem count_le_sum_of_ne_nil (l : List (List Char))
    (h : ∀ x ∈ l, x ≠ []) : l.length ≤ (l.map List.length).sum := by
  induction l with
  | nil => simp
  | cons s rest ih =>
    simp only [List.length_cons, List.map_cons, List.sum_cons]
    have hs : 1 ≤ s.length := by
      have := h s (List.mem_cons_self s rest)
      cases s with
      | nil => cases this rfl
      | cons a as => simp
    have := ih (fun x hx => h x (List.mem_cons_of_mem s hx))
    omega

/-- Size invariant of the assembly loop: provided every pending segment fits
in `max_chunk_size` and the accumulator is within bounds, every emitted
chunk's `chunk_length` is at most `2 * max_chunk_size - 1` (the size check
ignores the joining spaces, one per extra segment in the chunk). -/
theorem assembleLoop_chunk_length
    (ck : MedicalDocumentChunker) (clock : Nat → Timestamp) (title : String)
    (page : Int) :
    ∀ segs n cur curLen,
      (∀ s ∈ segs, s.length ≤ ck.max_chunk_size) →
      (∀ s ∈ segs, s ≠ []) →
      (∀ x ∈ cur, x ≠ []) →
      curLen = (cur.map List.length).sum →
      curLen ≤ ck.max_chunk_size →
      ∀ ch ∈ assembleLoop ck clock title page n cur curLen segs,
        ch.metadata.chunk_length ≤ 2 * ck.max_chunk_size - 1 := by
  intro segs
  induction segs with
  | nil =>
    intro n cur curLen _ _ hcur hsum hle ch hch
    simp only [assembleLoop] at hch
    by_cases hc : cur = []
    · rw [if_pos hc] at hch; simp at hch
    · rw [if_neg hc] at hch
      simp only [List.mem_singleton] at hch
      subst hch
      show (joinSp cur).length ≤ 2 * ck.max_chunk_size - 1
      rw [joinSp_length cur hc]
      have h1 := count_le_sum_of_ne_nil cur hcur
      have h2 : 1 ≤ cur.length := by
        cases cur with
        | nil => cases hc rfl
        | cons a as => simp
      omega
  | cons seg rest ih =>
    intro n cur curLen hlen hne hcur hsum hle ch hch
    simp only [assembleLoop] at hch
    by_cases hcond : curLen + (restore_patterns seg).length >
        ck.max_chunk_size ∧ cur ≠ []
    · rw [if_pos hcond] at hch
      rcases List.mem_cons.mp hch with hch | hch
      · subst hch
        show (joinSp cur).length ≤ 2 * ck.max_chunk_size - 1
        rw [joinSp_length cur hcond.2]
        have h1 := count_le_sum_of_ne_nil cur hcur
        have h2 : 1 ≤ cur.length := by
          cases cur with
          | nil => cases hcond.2 rfl
          | cons a as => simp
        omega
      · refine ih (n + 1) [restore_patterns seg] (restore_patterns seg).length
          (fun s hs => hlen s (List.mem_cons_of_mem seg hs))
          (fun s hs => hne s (List.mem_cons_of_mem seg hs)) ?_ (by simp) ?_
          ch hch
        · intro x hx
          simp only [List.mem_singleton] at hx
          subst hx
          intro hemp
          have := hne seg (List.mem_cons_self seg rest)
          apply this
          have := congrArg List.length hemp
          rw [restore_length] at this
          exact List.eq_nil_of_length_eq_zero this
        · rw [restore_length]
          exact hlen seg (List.mem_cons_self seg rest)
    · rw [if_neg hcond] at hch
      refine ih n (cur ++ [restore_patterns seg])
        (curLen + (restore_patterns seg).length)
        (fun s hs => hlen s (List.mem_cons_of_mem seg hs))
        (fun s hs => hne s (List.mem_cons_of_mem seg hs)) ?_ ?_ ?_ ch hch
      · intro x hx
        rcases List.mem_append.mp hx with hx | hx
        · exact hcur x hx
        · simp only [List.mem_singleton] at hx
          subst hx
          intro hemp
          apply hne seg (List.mem_cons_self seg rest)
          have := congrArg List.length hemp
          rw [restore_length] at this
          exact List.eq_nil_of_length_eq_zero this
      · rw [List.map_append, List.sum_append, hsum]
        simp
      · by_cases hc : cur = []
        · subst hc
          simp only [List.map_nil, List.sum_nil] at hsum
          subst hsum
          rw [restore_length]
          simpa using hlen seg (List.mem_cons_self seg rest)
        · have : ¬ curLen + (restore_patterns seg).length >
              ck.max_chunk_size := fun hgt => hcond ⟨hgt, hc⟩
          omega

/-- Solid characters across the assembled chunks are bounded by those of the
accumulator plus those of the pending segments. -/
theorem assembleLoop_solid
    (ck : MedicalDocumentChunker) (clock : Nat → Timestamp) (title : String)
    (page : Int) :
    ∀ segs n cur curLen,
      solidBag ((assembleLoop ck clock title page n cur curLen segs).flatMap
          fun ch => ch.content.data)
        ≤ (cur.map solidBag).sum + (segs.map solidBag).sum := by
  intro segs
  induction segs with
  | nil =>
    intro n cur curLen
    simp only [assembleLoop]
    by_cases hc : cur = []
    · rw [if_pos hc]
      simp [solidBag]
    · rw [if_neg hc]
      simp only [List.flatMap_cons, List.flatMap_nil, List.append_nil,
        create_chunk_content, List.map_nil, List.sum_nil, add_zero]
      rw [solidBag_joinSp]
  | cons seg rest ih =>
    intro n cur curLen
    simp only [assembleLoop]
    by_cases hcond : curLen + (restore_patterns seg).length >
        ck.max_chunk_size ∧ cur ≠ []
    · rw [if_pos hcond]
      simp only [List.flatMap_cons, create_chunk_content]
      rw [solidBag_append, solidBag_joinSp]
      have h := ih (n + 1) [restore_patterns seg] (restore_patterns seg).length
      simp only [List.map_cons, List.map_nil, List.sum_cons, List.sum_nil,
        add_zero, solidBag_restore] at h ⊢
      calc (cur.map solidBag).sum +
          solidBag ((assembleLoop ck clock title page (n + 1)
            [restore_patterns seg] (restore_patterns seg).length rest).flatMap
              fun ch => ch.content.data)
          ≤ (cur.map solidBag).sum + (solidBag seg + (rest.map solidBag).sum) :=
            add_le_add_left h _
        _ = (cur.map solidBag).sum + (solidBag seg + (rest.map solidBag).sum) :=
            rfl
    · rw [if_neg hcond]
      have h := ih n (cur ++ [restore_patterns seg])
        (curLen + (restore_patterns seg).length)
      simp only [List.map_append, List.sum_append, List.map_cons,
        List.map_nil, List.sum_cons, List.sum_nil, add_zero,
        solidBag_restore] at h ⊢
      calc solidBag ((assembleLoop ck clock title page n
            (cur ++ [restore_patterns seg])
            (curLen + (restore_patterns seg).length) rest).flatMap
              fun ch => ch.content.data)
          ≤ (cur.map solidBag).sum + solidBag seg + (rest.map solidBag).sum :=
            h
        _ = (cur.map solidBag).sum + (solidBag seg + (rest.map solidBag).sum) :=
            by rw [add_assoc]

theorem assembleLoop_view
    (ck : MedicalDocumentChunker) (clock₁ clock₂ : Nat → Timestamp)
    (title : String) (page : Int) :
    ∀ segs n₁ n₂ cur curLen,
      (assembleLoop ck clock₁ title page n₁ cur curLen segs).map chunkView
        = (assembleLoop ck clock₂ title page n₂ cur curLen segs).map
            chunkView := by
  intro segs
  induction segs with
  | nil =>
    intro n₁ n₂ cur curLen
    simp only [assembleLoop]
    by_cases hc : cur = []
    · rw [if_pos hc, if_pos hc]
    · rw [if_neg hc, if_neg hc]
      rfl
  | cons seg rest ih =>
    intro n₁ n₂ cur curLen
    simp only [assembleLoop]
    by_cases hcond : curLen + (restore_patterns seg).length >
        ck.max_chunk_size ∧ cur ≠ []
    · rw [if_pos hcond, if_pos hcond]
      simp only [List.map_cons]
      rw [ih (n₁ + 1) (n₂ + 1) _ _]
      rfl
    · rw [if_neg hcond, if_neg hcond]
      exact ih n₁ n₂ _ _

/-- The title feeds only naming fields: chunk contents do not depend on it
(nor on the page number or the clock). -/
theorem assembleLoop_contents
    (ck : MedicalDocumentChunker) (clock₁ clock₂ : Nat → Timestamp)
    (t₁ t₂ : String) (p₁ p₂ : Int) :
    ∀ segs n₁ n₂ cur curLen,
      (assembleLoop ck clock₁ t₁ p₁ n₁ cur curLen segs).map (·.content)
        = (assembleLoop ck clock₂ t₂ p₂ n₂ cur curLen segs).map
            (·.content) := by
  intro segs
  induction segs with
  | nil =>
    intro n₁ n₂ cur curLen
    simp only [assembleLoop]
    by_cases hc : cur = []
    · rw [if_pos hc, if_pos hc]
    · rw [if_neg hc, if_neg hc]
      rfl
  | cons seg rest ih =>
    intro n₁ n₂ cur curLen
    simp only [assembleLoop]
    by_cases hcond : curLen + (restore_patterns seg).length >
        ck.max_chunk_size ∧ cur ≠ []
    · rw [if_pos hcond, if_pos hcond]
      simp only [List.map_cons]
      rw [ih (n₁ + 1) (n₂ + 1) _ _]
      rfl
    · rw [if_neg hcond, if_neg hcond]
      exact ih n₁ n₂ _ _

/-- The chunk ids produced by the loop are the fixed `"{title}_{page}_"`
prefix followed by the clock values at consecutive creation indices. -/
theorem assembleLoop_ids
    (ck : MedicalDocumentChunker) (clock : Nat → Timestamp) (title : String)
    (page : Int) :
    ∀ segs n cur curLen, ∃ k,
      (assembleLoop ck clock title page n cur curLen segs).map (·.chunk_id)
        = (List.range' n k).map
            (fun i => title ++ "_" ++ toString page ++ "_"
              ++ (clock i).timestamp) := by
  intro segs
  induction segs with
  | nil =>
    intro n cur curLen
    simp only [assembleLoop]
    by_cases hc : cur = []
    · exact ⟨0, by rw [if_pos hc]; rfl⟩
    · refine ⟨1, by rw [if_neg hc]; rfl⟩
  | cons seg rest ih =>
    intro n cur curLen
    simp only [assembleLoop]
    by_cases hcond : curLen + (restore_patterns seg).length >
        ck.max_chunk_size ∧ cur ≠ []
    · obtain ⟨k, hk⟩ := ih (n + 1) [restore_patterns seg]
        (restore_patterns seg).length
      refine ⟨k + 1, ?_⟩
      rw [if_pos hcond]
      simp only [List.map_cons, hk, List.range'_succ, List.map_cons]
      rfl
    · obtain ⟨k, hk⟩ := ih n (cur ++ [restore_patterns seg])
        (curLen + (restore_patterns seg).length)
      refine ⟨k, ?_⟩
      rw [if_neg hcond]
      exact hk

/-- Restored text never contains the sentinel. -/
theorem block_not_mem_restore (s : List Char) :
    '█' ∉ restore_patterns s := by
  intro hmem
  simp only [restore_patterns, List.mem_map] at hmem
  obtain ⟨c, _, hc⟩ := hmem
  by_cases h : c = '█'
  · rw [if_pos h] at hc; cases hc
  · rw [if_neg h] at hc; exact h hc

theorem block_not_mem_joinSp (l : List (List Char))
    (h : ∀ x ∈ l, '█' ∉ x) : '█' ∉ joinSp l := by
  induction l with
  | nil => simp [joinSp]
  | cons s rest ih =>
    cases rest with
    | nil => exact h s (List.mem_cons_self s [])
    | cons s' rest' =>
      have hj : joinSp (s :: s' :: rest') = s ++ ' ' :: joinSp (s' :: rest') :=
        rfl
      rw [hj]
      intro hmem
      rcases List.mem_append.mp hmem with hmem | hmem
      · exact h s (List.mem_cons_self s _) hmem
      · rcases List.mem_cons.mp hmem with hmem | hmem
        · cases hmem
        · exact ih (fun x hx => h x (List.mem_cons_of_mem s hx)) hmem

/-- No chunk the loop emits contains the sentinel, provided the accumulator
does not. -/
theorem assembleLoop_no_block
    (ck : MedicalDocumentChunker) (clock : Nat → Timestamp) (title : String)
    (page : Int) :
    ∀ segs n cur curLen, (∀ x ∈ cur, '█' ∉ x) →
      ∀ ch ∈ assembleLoop ck clock title page n cur curLen segs,
        '█' ∉ ch.content.data := by
  intro segs
  induction segs with
  | nil =>
    intro n cur curLen hcur ch hch
    simp only [assembleLoop] at hch
    by_cases hc : cur = []
    · rw [if_pos hc] at hch; simp at hch
    · rw [if_neg hc] at hch
      simp only [List.mem_singleton] at hch
      subst hch
      rw [create_chunk_content]
      exact block_not_mem_joinSp cur hcur
  | cons seg rest ih =>
    intro n cur curLen hcur ch hch
    simp only [assembleLoop] at hch
    by_cases hcond : curLen + (restore_patterns seg).length >
        ck.max_chunk_size ∧ cur ≠ []
    · rw [if_pos hcond] at hch
      rcases List.mem_cons.mp hch with hch | hch
      · subst hch
        rw [create_chunk_content]
        exact block_not_mem_joinSp cur hcur
      · refine ih (n + 1) [restore_patterns seg] _ ?_ ch hch
        intro x hx
        simp only [List.mem_singleton] at hx
        subst hx
        exact block_not_mem_restore seg
    · rw [if_neg hcond] at hch
      refine ih n (cur ++ [restore_patterns seg]) _ ?_ ch hch
      intro x hx
      rcases List.mem_append.mp hx with hx | hx
      · exact hcur x hx
      · simp only [List.mem_singleton] at hx
        subst hx
        exact block_not_mem_restore seg

/-! ## Derived pipeline facts -/

/-- `_restore_patterns` is the identity on sentinel-free text. -/
theorem restore_id_of_no_block (t : List Char) (h : '█' ∉ t) :
    restore_patterns t = t := by
  induction t with
  | nil => rfl
  | cons c rest ih =>
    have hc : c ≠ '█' := fun hc => h (hc ▸ List.mem_cons_self c rest)
    simp only [restore_patterns, List.map_cons, if_neg hc]
    rw [show List.map (fun c => if c = '█' then ' ' else c) rest
        = restore_patterns rest from rfl,
      ih (fun hm => h (List.mem_cons_of_mem c hm))]

/-- `chunk_section` of whitespace-only content is empty. -/
theorem chunk_section_allSpace (ck : MedicalDocumentChunker)
    (clock : Nat → Timestamp) (title : String) (page : Int)
    (b : Int × Int × Int × Int) (content : String)
    (h : ∀ c ∈ content.data, isSpacePy c = true) :
    chunk_section ck clock ⟨title, content, page, b⟩ = [] := by
  unfold chunk_section
  show assembleLoop ck clock title page 0 [] 0
    (split_into_segments (protect_patterns content.data)) = []
  rw [protect_allSpace content.data h, split_into_segments_allSpace content.data h]
  rfl

/-! ## The claims -/

/-- **C1, counterexample.**  The claim says every non-whitespace character
of the section content appears in exactly one chunk (no loss).  False: the
bullet `'•'` of `"• Age"` is consumed by the list-marker break pattern
`•\s*|\*\s*|[\d]+\.\s*` of `_split_into_segments` and appears in no chunk —
the only chunk is `"Age"`. -/
theorem C1_counterexample_bullet_lost :
    (chunk_section defaultChunker testClock
        ⟨"treatment", "• Age", 1, (0, 0, 0, 0)⟩).map (·.content) = ["Age"]
    ∧ '•' ∈ "• Age".data ∧ isSpacePy '•' = false
    ∧ '•' ∉ ("Age" : String).data := by
  decide

/-- **C1, amended.**  No duplication and no invention: the multiset of
non-whitespace, non-sentinel characters over all chunks produced by
`chunk_section` is at most that of the section content (characters consumed
by break-pattern separators — bullets, asterisks, digit-runs before a
period — may be silently lost, so equality can fail). -/
theorem C1_solid_chars_no_duplication
    (ck : MedicalDocumentChunker) (clock : Nat → Timestamp)
    (sect : MedicalSection) :
    solidBag ((chunk_section ck clock sect).flatMap fun ch => ch.content.data)
      ≤ solidBag sect.content.data := by
  unfold chunk_section
  generalize hseg : split_into_segments (protect_patterns sect.content.data)
    = segs
  have h1 := assembleLoop_solid ck clock sect.title sect.page_num segs 0 [] 0
  simp only [List.map_nil, List.sum_nil, zero_add] at h1
  refine h1.trans ?_
  rw [bagSum_flatten segs]
  have hx := solidBag_segments_flat (protect_patterns sect.content.data)
  exact (hseg ▸ hx).trans (le_of_eq (solidBag_protect sect.content.data))

/-- **C2, counterexample.**  The claim says that when every segment fits in
`max_chunk_size`, every `chunk_length` is at most `max_chunk_size`.  False:
for `"Aaaa. Bbbb. Cc"` with `max_chunk_size = 12` the segments have lengths
5, 5 and 2, yet the single chunk is `"Aaaa. Bbbb. Cc"` of length 14 — the
loop's size check does not count the two joining spaces. -/
theorem C2_counterexample_join_spaces :
    ((split_into_segments
        (protect_patterns ("Aaaa. Bbbb. Cc" : String).data)).all
          fun seg => seg.length ≤ 12) = true
    ∧ (chunk_section ⟨12, 100⟩ testClock
        ⟨"treatment", "Aaaa. Bbbb. Cc", 1, (0, 0, 0, 0)⟩).map
          (·.metadata.chunk_length) = [14]
    ∧ ¬ (14 ≤ 12) := by
  decide

/-- **C2, amended.**  If every segment produced from the section's content
has length at most `max_chunk_size`, then every chunk's `chunk_length` is at
most `2 * max_chunk_size - 1`: the accumulated segment lengths stay within
`max_chunk_size`, but `' '.join` adds one uncounted space per extra segment
(at most `max_chunk_size - 1` of them, as segments are non-empty). -/
theorem C2_chunk_length_bound (ck : MedicalDocumentChunker)
    (clock : Nat → Timestamp) (sect : MedicalSection)
    (hlen : ∀ seg ∈ split_into_segments (protect_patterns sect.content.data),
      seg.length ≤ ck.max_chunk_size) :
    ∀ ch ∈ chunk_section ck clock sect,
      ch.metadata.chunk_length ≤ 2 * ck.max_chunk_size - 1 := by
  unfold chunk_section
  exact assembleLoop_chunk_length ck clock sect.title sect.page_num _ 0 [] 0
    hlen (split_into_segments_ne_nil _) (by simp) rfl (Nat.zero_le _)

/-- **C2, witness.** -/
theorem C2_chunk_length_bound_witness :
    ((chunk_section ⟨12, 100⟩ testClock
        ⟨"treatment", "Aaaa. Bbbb. Cc", 1, (0, 0, 0, 0)⟩).all
          fun ch => ch.metadata.chunk_length ≤ 2 * 12 - 1) = true :=
  List.all_eq_true.mpr fun ch hch =>
    decide_eq_true
      (C2_chunk_length_bound ⟨12, 100⟩ testClock
        ⟨"treatment", "Aaaa. Bbbb. Cc", 1, (0, 0, 0, 0)⟩ (by decide) ch hch)

/-- **C3 (code bug).**  The claim — and the code's own comment «Patterns
that should not be split» — promise that a literal date such as
`03/14/2024` survives intact inside a single chunk.  The code breaks this:
protection only masks *spaces* inside matches, and the list-marker break
pattern `[\d]+\.\s*` of `_split_into_segments` swallows `2024.`, so for
`"See 03/14/2024. Next visit soon."` the emitted chunk is
`"See 03/14/ Next visit soon."` and the date appears in no chunk. -/
theorem C3_date_destroyed_at_failing_input :
    ("03/14/2024".data <:+:
        ("See 03/14/2024. Next visit soon." : String).data)
    ∧ (chunk_section defaultChunker testClock
        ⟨"history", "See 03/14/2024. Next visit soon.", 1,
          (0, 0, 0, 0)⟩).map (·.content) = ["See 03/14/ Next visit soon."]
    ∧ ∀ ch ∈ chunk_section defaultChunker testClock
        ⟨"history", "See 03/14/2024. Next visit soon.", 1, (0, 0, 0, 0)⟩,
          ¬ ("03/14/2024".data <:+: ch.content.data) := by
  refine ⟨by decide, by decide, ?_⟩
  intro ch hch
  have h : ∀ x ∈ (chunk_section defaultChunker testClock
      ⟨"history", "See 03/14/2024. Next visit soon.", 1, (0, 0, 0, 0)⟩).map
        (·.content), ¬ ("03/14/2024".data <:+: x.data) := by decide
  exact h ch.content (List.mem_map_of_mem _ hch)

/-- **C4, counterexample.**  The claim says a Section titled `"table"`
yields one chunk whose content starts with `"TABLE:\n"` (with
`is_table = true`).  False: `chunk_section` has no table branch at all; the
chunk for `("table", "Col1 Col2")` is plain `"Col1 Col2"`, which does not
start with `"TABLE:\n"`, and the metadata dict has no `is_table` key. -/
theorem C4_counterexample_no_table_prefix :
    (chunk_section defaultChunker testClock
        ⟨"table", "Col1 Col2", 1, (0, 0, 0, 0)⟩).map (·.content)
      = ["Col1 Col2"]
    ∧ ("TABLE:\n".data.isPrefixOf ("Col1 Col2" : String).data) = false := by
  decide

/-- **C4, amended.**  A Section titled `"table"` receives no special
treatment: chunk contents are independent of the title (the title feeds
only the naming fields `section_type`/`chunk_id`/metadata), and no
`"TABLE:\n"` prefix is ever added — in particular the `"table"` section
above is chunked exactly like any other section with the same content. -/
theorem C4_title_independent_contents :
    (∀ (ck : MedicalDocumentChunker) (clock : Nat → Timestamp)
        (t₁ t₂ content : String) (page : Int) (b : Int × Int × Int × Int),
      (chunk_section ck clock ⟨t₁, content, page, b⟩).map (·.content)
        = (chunk_section ck clock ⟨t₂, content, page, b⟩).map (·.content))
    ∧ ("TABLE:\n".data.isPrefixOf ("Col1 Col2" : String).data) = false := by
  refine ⟨?_, by decide⟩
  intro ck clock t₁ t₂ content page b
  unfold chunk_section
  exact assembleLoop_contents ck clock clock t₁ t₂ page page _ 0 0 [] 0

/-- **C5, counterexample.**  The claim says that in the scenario
`("symptoms", "Patient reports headache. BP: 130/85. Follow up in 2
weeks.", 3)` with `max_chunk_size = 40` the span `"BP: 130/85"` stays
intact inside one chunk.  False: no protection rule matches it (the date
rule wants 1–2 digit fields, `130` has three), the colon and list-marker
break patterns cut right through it, `85.` is deleted, and no chunk
contains the span. -/
theorem C5_counterexample_span_not_intact :
    ("BP: 130/85".data <:+:
        ("Patient reports headache. BP: 130/85. Follow up in 2 weeks."
          : String).data)
    ∧ ∀ ch ∈ chunk_section ⟨40, 100⟩ testClock
        ⟨"symptoms",
          "Patient reports headache. BP: 130/85. Follow up in 2 weeks.", 3,
          (0, 0, 0, 0)⟩,
        ¬ ("BP: 130/85".data <:+: ch.content.data) := by
  refine ⟨by decide, ?_⟩
  intro ch hch
  have h : ∀ x ∈ (chunk_section ⟨40, 100⟩ testClock
      ⟨"symptoms",
        "Patient reports headache. BP: 130/85. Follow up in 2 weeks.", 3,
        (0, 0, 0, 0)⟩).map (·.content),
      ¬ ("BP: 130/85".data <:+: x.data) := by decide
  exact h ch.content (List.mem_map_of_mem _ hch)

/-- **C5, amended.**  In that scenario every chunk respects the 40-character
bound — but not because the span was kept whole: the two chunks are exactly
`"Patient reports headache. BP: 130/"` and `"Follow up in 2 weeks."`; the
span `"BP: 130/85"` is not protected, is split, and loses `"85."`. -/
theorem C5_scenario_chunks :
    (chunk_section ⟨40, 100⟩ testClock
        ⟨"symptoms",
          "Patient reports headache. BP: 130/85. Follow up in 2 weeks.", 3,
          (0, 0, 0, 0)⟩).map (·.content)
      = ["Patient reports headache. BP: 130/", "Follow up in 2 weeks."]
    ∧ ((chunk_section ⟨40, 100⟩ testClock
        ⟨"symptoms",
          "Patient reports headache. BP: 130/85. Follow up in 2 weeks.", 3,
          (0, 0, 0, 0)⟩).all
            fun ch => ch.metadata.chunk_length ≤ 40) = true := by
  decide

/-- **C6.**  A Section whose content is empty or whitespace-only yields the
empty chunk sequence: every preserve pattern needs a non-whitespace
character to match, so guarding is the identity, and every split piece
strips to the empty string and is discarded, leaving no segments and hence
no chunks. -/
theorem C6_whitespace_only_returns_nil (ck : MedicalDocumentChunker)
    (clock : Nat → Timestamp) (title : String) (page : Int)
    (b : Int × Int × Int × Int) (content : String)
    (h : ∀ c ∈ content.data, isSpacePy c = true) :
    chunk_section ck clock ⟨title, content, page, b⟩ = [] :=
  chunk_section_allSpace ck clock title page b content h

/-- **C6, witness**: the spec's concrete case
`chunk_section(Section("symptoms", "   ", 1)) = []`. -/
theorem C6_whitespace_only_returns_nil_witness :
    chunk_section defaultChunker testClock
      ⟨"symptoms", "   ", 1, (0, 0, 0, 0)⟩ = [] :=
  C6_whitespace_only_returns_nil defaultChunker testClock "symptoms" 1
    (0, 0, 0, 0) "   " (by decide)

/-- **C7, counterexample.**  The claim says `unguard ∘ guard` equals the
identity *except* that protected-span internal whitespace is collapsed to
single spaces.  False: `"50  mg"` is matched by the measurement rule (a
protected span with two internal spaces), yet
`_restore_patterns (_protect_patterns "50  mg")` returns `"50  mg"`
byte-for-byte — not the claimed `"50 mg"`. -/
theorem C7_counterexample_whitespace_kept :
    reSearch measurePat ("50  mg" : String).data = true
    ∧ restore_patterns (protect_patterns ("50  mg" : String).data)
        = ("50  mg" : String).data
    ∧ ("50  mg" : String).data ≠ ("50 mg" : String).data := by
  decide

/-- **C7, amended.**  `unguard ∘ guard` is the *exact* inverse on any text
free of the `'█'` sentinel (protected-span whitespace is restored
byte-for-byte, not normalised); in general it equals `unguard` alone, i.e.
the only change is that pre-existing `'█'` characters become `' '`. -/
theorem C7_unguard_guard_identity (t : List Char) :
    restore_patterns (protect_patterns t) = restore_patterns t
    ∧ ('█' ∉ t → restore_patterns (protect_patterns t) = t) := by
  refine ⟨restore_protect t, fun hb => ?_⟩
  rw [restore_protect t, restore_id_of_no_block t hb]

/-- **C7, witness.** -/
theorem C7_unguard_guard_identity_witness :
    restore_patterns (protect_patterns ("take 50  mg now" : String).data)
      = ("take 50  mg now" : String).data :=
  (C7_unguard_guard_identity ("take 50  mg now" : String).data).2 (by decide)

/-- **C8.**  Two-run determinism: chunking the same Section twice with the
same configuration but different wall clocks yields, position by position,
chunks with identical `content`, `section_type`, `page_num` and metadata
apart from the timestamp-derived `created_at` and `chunk_id`. -/
theorem C8_two_run_determinism (ck : MedicalDocumentChunker)
    (clock₁ clock₂ : Nat → Timestamp) (sect : MedicalSection) :
    (chunk_section ck clock₁ sect).map chunkView
      = (chunk_section ck clock₂ sect).map chunkView := by
  unfold chunk_section
  exact assembleLoop_view ck clock₁ clock₂ sect.title sect.page_num _ 0 0 [] 0

/-- **C9, counterexample.**  The claim says chunk ids are unique even for
chunks created in quick succession or concurrently.  False: the id is
`f"{section_type}_{page_num}_{datetime.now().timestamp()}"`, so two chunks
of one section created within one clock reading collide: with a frozen
clock both chunks of this section get the very same id. -/
theorem C9_counterexample_id_collision :
    (chunk_section ⟨8, 100⟩ stuckClock
        ⟨"labs", "Aaaa. Bbbb.", 2, (0, 0, 0, 0)⟩).map (·.chunk_id)
      = ["labs_2_1700000000.0", "labs_2_1700000000.0"]
    ∧ ¬ ((chunk_section ⟨8, 100⟩ stuckClock
        ⟨"labs", "Aaaa. Bbbb.", 2, (0, 0, 0, 0)⟩).map (·.chunk_id)).Nodup := by
  decide

/-- **C9, amended.**  Within one `chunk_section` run, the chunk ids are
pairwise distinct *provided* the clock readings at distinct chunk-creation
indices render to distinct timestamp strings; uniqueness relies entirely on
the clock never repeating a reading. -/
theorem C9_distinct_clock_unique_ids (ck : MedicalDocumentChunker)
    (clock : Nat → Timestamp) (sect : MedicalSection)
    (hclock : ∀ i j : Nat, i ≠ j →
      (clock i).timestamp ≠ (clock j).timestamp) :
    ((chunk_section ck clock sect).map (·.chunk_id)).Nodup := by
  unfold chunk_section
  obtain ⟨k, hk⟩ := assembleLoop_ids ck clock sect.title sect.page_num
    (split_into_segments (protect_patterns sect.content.data)) 0 [] 0
  rw [hk]
  refine List.Nodup.map_on ?_ (List.nodup_range' 0 k)
  intro i _ j _ heq
  by_contra hij
  apply hclock i j hij
  have hd := congrArg String.data heq
  simp only [String.data_append] at hd
  exact string_eq_of_data_eq (List.append_cancel_left hd)

/-- **C9, witness.** -/
theorem C9_distinct_clock_unique_ids_witness :
    ((chunk_section ⟨8, 100⟩ replClock
        ⟨"labs", "Aaaa. Bbbb.", 2, (0, 0, 0, 0)⟩).map (·.chunk_id)).Nodup :=
  C9_distinct_clock_unique_ids ⟨8, 100⟩ replClock
    ⟨"labs", "Aaaa. Bbbb.", 2, (0, 0, 0, 0)⟩
    (fun i j hij heq => hij (by
      have h2 := congrArg (fun s : String => s.data.length) heq
      simpa [replClock] using h2))

/-- **C10.**  Pre-existing `'█'` sentinels in the section content are
silently turned into spaces: no output chunk ever contains `'█'` (the
unguard step replaces every `'█'` indiscriminately), and concretely the
content `"a█b"` comes out as the chunk `"a b"`. -/
theorem C10_sentinel_replaced_by_space :
    (∀ (ck : MedicalDocumentChunker) (clock : Nat → Timestamp)
        (sect : MedicalSection),
      ((chunk_section ck clock sect).all
        fun ch => ch.content.data.all fun c => c != '█') = true)
    ∧ (chunk_section defaultChunker testClock
        ⟨"notes", "a█b", 1, (0, 0, 0, 0)⟩).map (·.content) = ["a b"] := by
  refine ⟨?_, by decide⟩
  intro ck clock sect
  rw [List.all_eq_true]
  intro ch hch
  rw [List.all_eq_true]
  intro c hc
  have h := assembleLoop_no_block ck clock sect.title sect.page_num
    (split_into_segments (protect_patterns sect.content.data)) 0 [] 0
    (by simp) ch (by unfold chunk_section at hch; exact hch)
  exact bne_iff_ne.mpr (fun hcb => h (hcb ▸ hc))
